import Mathlib

/-!
Verification of the feed-aggregation core of the email news digest program
(file Email-news-app/main.py), shallowly embedded in Lean.

Modelling conventions:
- A point in time is an integer instant (measured in hours, so that the
  sinceHours window subtracts directly).  Every call the program makes to
  datetime.now(timezone.utc) is modelled by the single parameter now : Int,
  supplied once per aggregation run.
- A parsed timestamp carries its instant together with an awareness flag:
  aware = false models a naive datetime (no tzinfo).  The coercion
  replace(tzinfo=timezone.utc) keeps the wall-clock value and only sets the
  flag, so the comparable instant is unchanged.
- The Python set of seen links is modelled as a list of strings used only
  through membership and insertion.
- Python list.sort(key=..., reverse=True) is a stable descending sort; it is
  modelled by sortDesc, a stable insertion sort on an integer key.
-/

namespace EmailNews

/-- A parsed timestamp: an instant plus whether it carries a UTC offset
(tzinfo).  A naive datetime has aware = false. -/
structure Timestamp where
  time : Int
  aware : Bool
deriving DecidableEq

/-- The canonical item built by fetch_feed: source label, title, summary,
link (possibly empty) and optional parsed publish time. -/
structure Item where
  source : String
  title : String
  summary : String
  link : String
  published : Option Timestamp
deriving DecidableEq

/-- The in-loop coercion in harvest_all:
if it.published and it.published.tzinfo is None then
it.published = it.published.replace(tzinfo=timezone.utc).
The wall-clock instant is unchanged; only the awareness flag is set. -/
def coerceTz (it : Item) : Item :=
  match it.published with
  | some t => if t.aware then it else { it with published := some ⟨t.time, true⟩ }
  | none => it

/-- The recency filter of harvest_all:
if it.published and it.published < cutoff then skip the item.
An item with no published value is never rejected here. -/
def recencyReject (cutoff : Int) (it : Item) : Bool :=
  match it.published with
  | some t => decide (t.time < cutoff)
  | none => false

/-- The sort key lambda of harvest_all: x.published or datetime.now(utc).
An absent published value compares as the current instant. -/
def keyOf (now : Int) (it : Item) : Int :=
  match it.published with
  | some t => t.time
  | none => now

/-- Stable insertion of x into a descending-sorted list: x is placed in
front of the first element whose key is not larger, so among equal keys the
newly inserted (originally earlier) element comes first. -/
def insertDesc (key : Item → Int) (x : Item) : List Item → List Item
  | [] => [x]
  | y :: ys => if key y ≤ key x then x :: y :: ys else y :: insertDesc key x ys

/-- Stable descending sort by an integer key, modelling Python
list.sort(key=..., reverse=True). -/
def sortDesc (key : Item → Int) (l : List Item) : List Item :=
  l.foldr (insertDesc key) []

/-- The inner accept loop of harvest_all over one (already sorted) feed:
per-feed counter check, timezone coercion, recency filter, duplicate
filter on the link, then append to the accepted list, record the link and
check the global cap.  Returns the accepted list and the seen-link set. -/
def processItems (cutoff : Int) (pf mt : Nat) :
    List Item → List Item → List String → Nat → List Item × List String
  | [], acc, seen, _ => (acc, seen)
  | it :: rest, acc, seen, count =>
    if pf ≤ count then (acc, seen)
    else
      let itc := coerceTz it
      if recencyReject cutoff itc then
        processItems cutoff pf mt rest acc seen count
      else if itc.link ∈ seen then
        processItems cutoff pf mt rest acc seen count
      else
        let acc2 := acc ++ [itc]
        if mt ≤ acc2.length then (acc2, itc.link :: seen)
        else processItems cutoff pf mt rest acc2 (itc.link :: seen) (count + 1)

/-- The outer feed loop of harvest_all: sort each feed descending by the
key, run the accept loop, and stop all processing once the accepted count
has reached the global cap. -/
def harvestGo (now cutoff : Int) (pf mt : Nat) :
    List (List Item) → List Item × List String → List Item × List String
  | [], st => st
  | items :: rest, st =>
    let st2 := processItems cutoff pf mt (sortDesc (keyOf now) items) st.1 st.2 0
    if mt ≤ st2.1.length then st2 else harvestGo now cutoff pf mt rest st2

/-- harvest_all of the program, over already-fetched feeds: cutoff is
now minus the sinceHours window, the feeds are processed in order, and the
accepted list is finally sorted globally by the same descending key. -/
def harvest_all (now : Int) (pf sh mt : Nat) (feeds : List (List Item)) : List Item :=
  sortDesc (keyOf now) (harvestGo now (now - (sh : Int)) pf mt feeds ([], [])).1

/-- The same pipeline with both sorting passes removed: feeds are consumed
in fetch order.  Used to state that when no item has a parseable timestamp
the aggregation preserves fetch order. -/
def fetchOrderGo (cutoff : Int) (pf mt : Nat) :
    List (List Item) → List Item × List String → List Item × List String
  | [], st => st
  | items :: rest, st =>
    let st2 := processItems cutoff pf mt items st.1 st.2 0
    if mt ≤ st2.1.length then st2 else fetchOrderGo cutoff pf mt rest st2

/-- harvest_all with every sort removed: pure fetch-order acceptance. -/
def harvestFetchOrder (now : Int) (pf sh mt : Nat) (feeds : List (List Item)) : List Item :=
  (fetchOrderGo (now - (sh : Int)) pf mt feeds ([], [])).1

/-!
The per-source sort as Python actually executes it: list.sort computes the
key of every raw item and then compares keys.  Before the in-loop coercion
a key is either a naive instant, an aware instant, or (for a missing
published value) the aware instant now.  Comparing a naive datetime with an
aware one raises TypeError in Python; this partiality is modelled with
Except, an error value standing for the uncaught exception.
-/

/-- The raw (pre-coercion) sort key of an item: awareness flag and
instant; a missing published value becomes the aware instant now. -/
def rawKey (now : Int) (it : Item) : Bool × Int :=
  match it.published with
  | some t => (t.aware, t.time)
  | none => (true, now)

/-- Python comparison of two datetime sort keys: defined only when both
are naive or both aware; otherwise it raises (modelled as an error).  The
result is whether the first key is at least the second. -/
def cmpKey : Bool × Int → Bool × Int → Except Unit Bool
  | (a1, t1), (a2, t2) => if a1 = a2 then Except.ok (decide (t2 ≤ t1)) else Except.error ()

/-- Stable descending insertion over raw keys, propagating a comparison
error. -/
def insertRaw (now : Int) (x : Item) : List Item → Except Unit (List Item)
  | [] => Except.ok [x]
  | y :: ys =>
    match cmpKey (rawKey now x) (rawKey now y) with
    | Except.error e => Except.error e
    | Except.ok true => Except.ok (x :: y :: ys)
    | Except.ok false =>
      match insertRaw now x ys with
      | Except.error e => Except.error e
      | Except.ok zs => Except.ok (y :: zs)

/-- The per-source sort of harvest_all exactly as executed: over the raw,
not yet coerced published values, raising when naive and aware timestamps
are compared. -/
def pySortRaw (now : Int) (l : List Item) : Except Unit (List Item) :=
  l.foldr (fun x r => match r with
    | Except.error e => Except.error e
    | Except.ok zs => insertRaw now x zs) (Except.ok [])

/-!
The per-entry date extraction of fetch_feed: walk the candidate fields
published, updated, created; for the first present one attempt a parse,
breaking on success; a parse exception is caught and the walk continues
with the next field.  The parser is an arbitrary function into Except so
that the theorem quantifies over every possible parser behaviour,
including raising on any input.
-/

/-- A raw feed entry as seen by fetch_feed: the three candidate date
fields, each possibly absent. -/
structure Entry where
  published : Option String
  updated : Option String
  created : Option String
deriving DecidableEq

/-- One candidate field of the extraction loop: if the field is absent
fall through; if present, try the parse and break on success, and on a
parse exception fall through to the next field (the except branch). -/
def tryDateField (parse : String → Except String Timestamp) (field : Option String)
    (next : Except String (Option Timestamp)) : Except String (Option Timestamp) :=
  match field with
  | none => next
  | some s =>
    match parse s with
    | Except.ok t => Except.ok (some t)
    | Except.error _ => next

/-- The full date extraction of fetch_feed for one entry: candidates in
the order published, updated, created; none if all are absent or
unparseable. -/
def extractPublished (parse : String → Except String Timestamp) (e : Entry) :
    Except String (Option Timestamp) :=
  tryDateField parse e.published
    (tryDateField parse e.updated
      (tryDateField parse e.created (Except.ok none)))

/-!  Concrete fixtures used by the closed theorems and witnesses. -/

/-- A recent aware item with a non-empty link. -/
def itemRecent : Item := ⟨"s", "t", "", "a", some ⟨-1, true⟩⟩

/-- First empty-link item, no timestamp. -/
def itemEmptyLink1 : Item := ⟨"s1", "first", "", "", none⟩

/-- Second empty-link item, no timestamp, different title. -/
def itemEmptyLink2 : Item := ⟨"s2", "second", "", "", none⟩

/-- Scenario B: item from the earlier-listed source, link L. -/
def itemDupFirst : Item := ⟨"s1", "t1", "", "L", some ⟨-1, true⟩⟩

/-- Scenario B: item from the later-listed source, same link L, other
title. -/
def itemDupSecond : Item := ⟨"s2", "t2", "", "L", some ⟨-2, true⟩⟩

/-- An item whose published timestamp parsed without a UTC offset. -/
def itemNaive : Item := ⟨"s", "naive", "", "n", some ⟨100, false⟩⟩

/-- An item whose published timestamp parsed with a UTC offset. -/
def itemAware : Item := ⟨"s", "aware", "", "w", some ⟨50, true⟩⟩

/-- An item outside the recency window (cutoff -24 at now = 0), link x. -/
def itemOld : Item := ⟨"s1", "old", "", "x", some ⟨-100, true⟩⟩

/-- An item inside the recency window sharing link x with itemOld. -/
def itemFresh : Item := ⟨"s2", "fresh", "", "x", some ⟨-10, true⟩⟩

/-- An item of a source not under scrutiny, used by the per-source
witness. -/
def itemOther : Item := ⟨"other", "p", "", "po", some ⟨-1, true⟩⟩

/-- First item of source S. -/
def itemS1 : Item := ⟨"S", "a", "", "sa", some ⟨-1, true⟩⟩

/-- Second item of source S. -/
def itemS2 : Item := ⟨"S", "b", "", "sb", some ⟨-2, true⟩⟩

/-!  Lemmas about the stable descending sort. -/

theorem insertDesc_perm (key : Item → Int) (x : Item) (l : List Item) :
    List.Perm (insertDesc key x l) (x :: l) := by
  induction l with
  | nil => exact List.Perm.refl _
  | cons y ys ih =>
    by_cases h : key y ≤ key x
    · rw [insertDesc, if_pos h]
    · rw [insertDesc, if_neg h]
      exact (ih.cons y).trans (List.Perm.swap x y ys)

theorem sortDesc_perm (key : Item → Int) (l : List Item) : List.Perm (sortDesc key l) l := by
  induction l with
  | nil => exact List.Perm.refl _
  | cons x xs ih =>
    exact (insertDesc_perm key x (sortDesc key xs)).trans (ih.cons x)

theorem sortDesc_mem (key : Item → Int) (l : List Item) (it : Item) :
    it ∈ sortDesc key l ↔ it ∈ l :=
  (sortDesc_perm key l).mem_iff

theorem insertDesc_sorted (key : Item → Int) (x : Item) (l : List Item)
    (h : l.Pairwise (fun a b => key b ≤ key a)) :
    (insertDesc key x l).Pairwise (fun a b => key b ≤ key a) := by
  induction l with
  | nil => simp [insertDesc]
  | cons y ys ih =>
    rcases List.pairwise_cons.1 h with ⟨hy, hys⟩
    by_cases hxy : key y ≤ key x
    · rw [insertDesc, if_pos hxy]
      refine List.pairwise_cons.2 ⟨?_, h⟩
      intro z hz
      rcases List.mem_cons.1 hz with rfl | hz2
      · exact hxy
      · exact le_trans (hy z hz2) hxy
    · rw [insertDesc, if_neg hxy]
      refine List.pairwise_cons.2 ⟨?_, ih hys⟩
      intro z hz
      have hz3 : z ∈ x :: ys := (insertDesc_perm key x ys).mem_iff.1 hz
      rcases List.mem_cons.1 hz3 with rfl | hz2
      · exact le_of_lt (lt_of_not_le hxy)
      · exact hy z hz2

theorem sortDesc_sorted (key : Item → Int) (l : List Item) :
    (sortDesc key l).Pairwise (fun a b => key b ≤ key a) := by
  induction l with
  | nil => simp [sortDesc]
  | cons x xs ih => exact insertDesc_sorted key x _ ih

theorem insertDesc_filter_key (key : Item → Int) (k : Int) (x : Item) (l : List Item) :
    (insertDesc key x l).filter (fun z => key z == k)
      = (x :: l).filter (fun z => key z == k) := by
  induction l with
  | nil => rfl
  | cons y ys ih =>
    by_cases hxy : key y ≤ key x
    · rw [insertDesc, if_pos hxy]
    · rw [insertDesc, if_neg hxy]
      have hlt : key x < key y := lt_of_not_le hxy
      by_cases hx : key x = k
      · have hy : key y ≠ k := by intro hk; omega
        simp [List.filter_cons, ih, hx, hy]
      · simp [List.filter_cons, ih, hx]

theorem sortDesc_filter_key (key : Item → Int) (k : Int) (l : List Item) :
    (sortDesc key l).filter (fun z => key z == k) = l.filter (fun z => key z == k) := by
  induction l with
  | nil => rfl
  | cons x xs ih =>
    have hstep : sortDesc key (x :: xs) = insertDesc key x (sortDesc key xs) := rfl
    rw [hstep, insertDesc_filter_key]
    simp [List.filter_cons, ih]

theorem sortDesc_const_key (key : Item → Int) (c : Int) (l : List Item)
    (h : ∀ x ∈ l, key x = c) : sortDesc key l = l := by
  induction l with
  | nil => rfl
  | cons x xs ih =>
    have hx : key x = c := h x (List.mem_cons_self x xs)
    have hxs : sortDesc key xs = xs := ih fun z hz => h z (List.mem_cons_of_mem x hz)
    have : sortDesc key (x :: xs) = insertDesc key x (sortDesc key xs) := rfl
    rw [this, hxs]
    cases xs with
    | nil => rfl
    | cons y ys =>
      have hy : key y = c := h y (List.mem_cons_of_mem x (List.mem_cons_self y ys))
      rw [insertDesc, if_pos (by rw [hx, hy])]

/-!  Step equations for the accept loop. -/

theorem processItems_nil (cutoff : Int) (pf mt : Nat) (acc : List Item)
    (seen : List String) (count : Nat) :
    processItems cutoff pf mt [] acc seen count = (acc, seen) := rfl

theorem processItems_stop (cutoff : Int) (pf mt : Nat) (it : Item) (rest acc : List Item)
    (seen : List String) (count : Nat) (hc : pf ≤ count) :
    processItems cutoff pf mt (it :: rest) acc seen count = (acc, seen) := by
  simp [processItems, hc]

theorem processItems_skip_recency (cutoff : Int) (pf mt : Nat) (it : Item)
    (rest acc : List Item) (seen : List String) (count : Nat)
    (hc : ¬ pf ≤ count) (hr : recencyReject cutoff (coerceTz it) = true) :
    processItems cutoff pf mt (it :: rest) acc seen count
      = processItems cutoff pf mt rest acc seen count := by
  simp [processItems, hc, hr]

theorem processItems_skip_dup (cutoff : Int) (pf mt : Nat) (it : Item)
    (rest acc : List Item) (seen : List String) (count : Nat)
    (hc : ¬ pf ≤ count) (hr : recencyReject cutoff (coerceTz it) = false)
    (hd : (coerceTz it).link ∈ seen) :
    processItems cutoff pf mt (it :: rest) acc seen count
      = processItems cutoff pf mt rest acc seen count := by
  simp [processItems, hc, hr, hd]

theorem processItems_accept_stop (cutoff : Int) (pf mt : Nat) (it : Item)
    (rest acc : List Item) (seen : List String) (count : Nat)
    (hc : ¬ pf ≤ count) (hr : recencyReject cutoff (coerceTz it) = false)
    (hd : ¬ (coerceTz it).link ∈ seen) (hb : mt ≤ (acc ++ [coerceTz it]).length) :
    processItems cutoff pf mt (it :: rest) acc seen count
      = (acc ++ [coerceTz it], (coerceTz it).link :: seen) := by
  have hb2 : mt ≤ acc.length + 1 := by simpa using hb
  simp [processItems, hc, hr, hd, hb2]

theorem processItems_accept_go (cutoff : Int) (pf mt : Nat) (it : Item)
    (rest acc : List Item) (seen : List String) (count : Nat)
    (hc : ¬ pf ≤ count) (hr : recencyReject cutoff (coerceTz it) = false)
    (hd : ¬ (coerceTz it).link ∈ seen) (hb : ¬ mt ≤ (acc ++ [coerceTz it]).length) :
    processItems cutoff pf mt (it :: rest) acc seen count
      = processItems cutoff pf mt rest (acc ++ [coerceTz it])
          ((coerceTz it).link :: seen) (count + 1) := by
  have hb2 : ¬ mt ≤ acc.length + 1 := by simpa using hb
  simp [processItems, hc, hr, hd, hb2]

/-!  Invariants of the accept loop. -/

/-- The accepted list grows by a suffix of at most pf minus count items,
each a coerced element of the consumed feed. -/
theorem processItems_chunk (cutoff : Int) (pf mt : Nat) (items : List Item) :
    ∀ (acc : List Item) (seen : List String) (count : Nat),
    ∃ ch : List Item,
      (processItems cutoff pf mt items acc seen count).1 = acc ++ ch ∧
      ch.length ≤ pf - count ∧
      ∀ z ∈ ch, ∃ z0 ∈ items, z = coerceTz z0 := by
  induction items with
  | nil =>
    intro acc seen count
    exact ⟨[], by simp [processItems_nil], by simp, by simp⟩
  | cons it rest ih =>
    intro acc seen count
    by_cases hc : pf ≤ count
    · exact ⟨[], by simp [processItems_stop _ _ _ _ _ _ _ _ hc], by simp, by simp⟩
    · cases hr : recencyReject cutoff (coerceTz it) with
      | true =>
        obtain ⟨ch, h1, h2, h3⟩ := ih acc seen count
        refine ⟨ch, ?_, h2, ?_⟩
        · rw [processItems_skip_recency _ _ _ _ _ _ _ _ hc hr]; exact h1
        · intro z hz
          obtain ⟨z0, hz0, hz1⟩ := h3 z hz
          exact ⟨z0, List.mem_cons_of_mem it hz0, hz1⟩
      | false =>
        by_cases hd : (coerceTz it).link ∈ seen
        · obtain ⟨ch, h1, h2, h3⟩ := ih acc seen count
          refine ⟨ch, ?_, h2, ?_⟩
          · rw [processItems_skip_dup _ _ _ _ _ _ _ _ hc hr hd]; exact h1
          · intro z hz
            obtain ⟨z0, hz0, hz1⟩ := h3 z hz
            exact ⟨z0, List.mem_cons_of_mem it hz0, hz1⟩
        · by_cases hb : mt ≤ (acc ++ [coerceTz it]).length
          · refine ⟨[coerceTz it], ?_, ?_, ?_⟩
            · rw [processItems_accept_stop _ _ _ _ _ _ _ _ hc hr hd hb]
            · simp; omega
            · intro z hz
              rcases List.mem_singleton.1 hz with rfl
              exact ⟨it, List.mem_cons_self it rest, rfl⟩
          · obtain ⟨ch, h1, h2, h3⟩ := ih (acc ++ [coerceTz it]) ((coerceTz it).link :: seen) (count + 1)
            refine ⟨coerceTz it :: ch, ?_, ?_, ?_⟩
            · rw [processItems_accept_go _ _ _ _ _ _ _ _ hc hr hd hb, h1]
              simp
            · simp only [List.length_cons]
              omega
            · intro z hz
              rcases List.mem_cons.1 hz with rfl | hz2
              · exact ⟨it, List.mem_cons_self it rest, rfl⟩
              · obtain ⟨z0, hz0, hz1⟩ := h3 z hz2
                exact ⟨z0, List.mem_cons_of_mem it hz0, hz1⟩

/-- The seen set is exactly the links of the accepted items, and the
accepted links stay pairwise distinct. -/
theorem processItems_inv (cutoff : Int) (pf mt : Nat) (items : List Item) :
    ∀ (acc : List Item) (seen : List String) (count : Nat),
    (∀ s : String, s ∈ seen ↔ s ∈ acc.map (fun x => x.link)) →
    ((acc.map fun x => x.link).Nodup) →
    (∀ s : String, s ∈ (processItems cutoff pf mt items acc seen count).2
        ↔ s ∈ ((processItems cutoff pf mt items acc seen count).1.map fun x => x.link))
    ∧ (((processItems cutoff pf mt items acc seen count).1.map fun x => x.link).Nodup) := by
  induction items with
  | nil =>
    intro acc seen count h1 h2
    exact ⟨fun s => by simpa [processItems_nil] using h1 s, by simpa [processItems_nil] using h2⟩
  | cons it rest ih =>
    intro acc seen count h1 h2
    by_cases hc : pf ≤ count
    · rw [processItems_stop _ _ _ _ _ _ _ _ hc]
      exact ⟨h1, h2⟩
    · cases hr : recencyReject cutoff (coerceTz it) with
      | true =>
        rw [processItems_skip_recency _ _ _ _ _ _ _ _ hc hr]
        exact ih acc seen count h1 h2
      | false =>
        by_cases hd : (coerceTz it).link ∈ seen
        · rw [processItems_skip_dup _ _ _ _ _ _ _ _ hc hr hd]
          exact ih acc seen count h1 h2
        · have hnot : (coerceTz it).link ∉ acc.map (fun x => x.link) :=
            fun hmem => hd ((h1 _).2 hmem)
          have h1b : ∀ s : String, s ∈ (coerceTz it).link :: seen
              ↔ s ∈ (acc ++ [coerceTz it]).map (fun x => x.link) := by
            intro s
            simp only [List.mem_cons, List.map_append, List.mem_append, List.map_cons,
              List.map_nil, List.mem_singleton, h1 s]
            tauto
          have h2b : ((acc ++ [coerceTz it]).map fun x => x.link).Nodup := by
            simp only [List.map_append, List.map_cons, List.map_nil]
            rw [List.nodup_append]
            exact ⟨h2, List.nodup_singleton _, by simpa using hnot⟩
          by_cases hb : mt ≤ (acc ++ [coerceTz it]).length
          · rw [processItems_accept_stop _ _ _ _ _ _ _ _ hc hr hd hb]
            exact ⟨h1b, h2b⟩
          · rw [processItems_accept_go _ _ _ _ _ _ _ _ hc hr hd hb]
            exact ih _ _ _ h1b h2b

/-- Every accepted item with a present published value is at or after the
cutoff: the recency filter admits no older timestamp. -/
theorem processItems_pub (cutoff : Int) (pf mt : Nat) (items : List Item) :
    ∀ (acc : List Item) (seen : List String) (count : Nat),
    (∀ z ∈ acc, ∀ t : Timestamp, z.published = some t → cutoff ≤ t.time) →
    ∀ z ∈ (processItems cutoff pf mt items acc seen count).1,
      ∀ t : Timestamp, z.published = some t → cutoff ≤ t.time := by
  induction items with
  | nil =>
    intro acc seen count h
    simpa [processItems_nil] using h
  | cons it rest ih =>
    intro acc seen count h
    by_cases hc : pf ≤ count
    · rw [processItems_stop _ _ _ _ _ _ _ _ hc]; exact h
    · cases hr : recencyReject cutoff (coerceTz it) with
      | true =>
        rw [processItems_skip_recency _ _ _ _ _ _ _ _ hc hr]
        exact ih acc seen count h
      | false =>
        have hacc : ∀ t : Timestamp, (coerceTz it).published = some t → cutoff ≤ t.time := by
          intro t ht
          have := hr
          rw [recencyReject, ht] at this
          simpa using le_of_not_lt (by simpa using this)
        have hb2 : ∀ z ∈ acc ++ [coerceTz it], ∀ t : Timestamp,
            z.published = some t → cutoff ≤ t.time := by
          intro z hz
          rcases List.mem_append.1 hz with hz2 | hz2
          · exact h z hz2
          · rcases List.mem_singleton.1 hz2 with rfl
            exact hacc
        by_cases hd : (coerceTz it).link ∈ seen
        · rw [processItems_skip_dup _ _ _ _ _ _ _ _ hc hr hd]
          exact ih acc seen count h
        · by_cases hb : mt ≤ (acc ++ [coerceTz it]).length
          · rw [processItems_accept_stop _ _ _ _ _ _ _ _ hc hr hd hb]
            exact hb2
          · rw [processItems_accept_go _ _ _ _ _ _ _ _ hc hr hd hb]
            exact ih _ _ _ hb2

/-- When every incoming item lacks a published value, so does every
accepted item. -/
theorem processItems_none (cutoff : Int) (pf mt : Nat) (items : List Item) :
    ∀ (acc : List Item) (seen : List String) (count : Nat),
    (∀ z ∈ items, z.published = none) →
    (∀ z ∈ acc, z.published = none) →
    ∀ z ∈ (processItems cutoff pf mt items acc seen count).1, z.published = none := by
  induction items with
  | nil =>
    intro acc seen count _ h
    simpa [processItems_nil] using h
  | cons it rest ih =>
    intro acc seen count hi h
    have hitn : it.published = none := hi it (List.mem_cons_self it rest)
    have hco : coerceTz it = it := by rw [coerceTz, hitn]
    have hirest : ∀ z ∈ rest, z.published = none :=
      fun z hz => hi z (List.mem_cons_of_mem it hz)
    by_cases hc : pf ≤ count
    · rw [processItems_stop _ _ _ _ _ _ _ _ hc]; exact h
    · cases hr : recencyReject cutoff (coerceTz it) with
      | true =>
        rw [processItems_skip_recency _ _ _ _ _ _ _ _ hc hr]
        exact ih acc seen count hirest h
      | false =>
        have hb2 : ∀ z ∈ acc ++ [coerceTz it], z.published = none := by
          intro z hz
          rcases List.mem_append.1 hz with hz2 | hz2
          · exact h z hz2
          · rcases List.mem_singleton.1 hz2 with rfl
            rw [hco]; exact hitn
        by_cases hd : (coerceTz it).link ∈ seen
        · rw [processItems_skip_dup _ _ _ _ _ _ _ _ hc hr hd]
          exact ih acc seen count hirest h
        · by_cases hb : mt ≤ (acc ++ [coerceTz it]).length
          · rw [processItems_accept_stop _ _ _ _ _ _ _ _ hc hr hd hb]
            exact hb2
          · rw [processItems_accept_go _ _ _ _ _ _ _ _ hc hr hd hb]
            exact ih _ _ _ hirest hb2

/-!  Small facts about coercion and the key. -/

theorem coerceTz_source (z : Item) : (coerceTz z).source = z.source := by
  unfold coerceTz
  cases hz : z.published with
  | none => rfl
  | some t =>
    cases t with
    | mk time aware => cases aware <;> rfl

theorem coerceTz_of_none (z : Item) (h : z.published = none) : coerceTz z = z := by
  unfold coerceTz
  rw [h]

theorem keyOf_none (now : Int) (z : Item) (h : z.published = none) : keyOf now z = now := by
  unfold keyOf
  rw [h]

/-!  Step equations and invariants of the outer feed loop. -/

theorem harvestGo_nil (now cutoff : Int) (pf mt : Nat) (st : List Item × List String) :
    harvestGo now cutoff pf mt [] st = st := rfl

theorem harvestGo_cons (now cutoff : Int) (pf mt : Nat) (items : List Item)
    (rest : List (List Item)) (st : List Item × List String) :
    harvestGo now cutoff pf mt (items :: rest) st
      = (if mt ≤ (processItems cutoff pf mt (sortDesc (keyOf now) items) st.1 st.2 0).1.length
          then processItems cutoff pf mt (sortDesc (keyOf now) items) st.1 st.2 0
          else harvestGo now cutoff pf mt rest
            (processItems cutoff pf mt (sortDesc (keyOf now) items) st.1 st.2 0)) := rfl

theorem fetchOrderGo_nil (cutoff : Int) (pf mt : Nat) (st : List Item × List String) :
    fetchOrderGo cutoff pf mt [] st = st := rfl

theorem fetchOrderGo_cons (cutoff : Int) (pf mt : Nat) (items : List Item)
    (rest : List (List Item)) (st : List Item × List String) :
    fetchOrderGo cutoff pf mt (items :: rest) st
      = (if mt ≤ (processItems cutoff pf mt items st.1 st.2 0).1.length
          then processItems cutoff pf mt items st.1 st.2 0
          else fetchOrderGo cutoff pf mt rest (processItems cutoff pf mt items st.1 st.2 0)) := rfl

/-- Lifted seen-set and distinct-link invariant for the whole feed loop. -/
theorem harvestGo_inv (now cutoff : Int) (pf mt : Nat) (feeds : List (List Item)) :
    ∀ st : List Item × List String,
    (∀ s : String, s ∈ st.2 ↔ s ∈ st.1.map (fun x => x.link)) →
    ((st.1.map fun x => x.link).Nodup) →
    (∀ s : String, s ∈ (harvestGo now cutoff pf mt feeds st).2
        ↔ s ∈ ((harvestGo now cutoff pf mt feeds st).1.map fun x => x.link))
    ∧ (((harvestGo now cutoff pf mt feeds st).1.map fun x => x.link).Nodup) := by
  induction feeds with
  | nil => intro st h1 h2; exact ⟨h1, h2⟩
  | cons f rest ih =>
    intro st h1 h2
    obtain ⟨g1, g2⟩ := processItems_inv cutoff pf mt (sortDesc (keyOf now) f) st.1 st.2 0 h1 h2
    rw [harvestGo_cons]
    by_cases hb : mt ≤ (processItems cutoff pf mt (sortDesc (keyOf now) f) st.1 st.2 0).1.length
    · rw [if_pos hb]; exact ⟨g1, g2⟩
    · rw [if_neg hb]; exact ih _ g1 g2

/-- Lifted recency bound for the whole feed loop. -/
theorem harvestGo_pub (now cutoff : Int) (pf mt : Nat) (feeds : List (List Item)) :
    ∀ st : List Item × List String,
    (∀ z ∈ st.1, ∀ t : Timestamp, z.published = some t → cutoff ≤ t.time) →
    ∀ z ∈ (harvestGo now cutoff pf mt feeds st).1,
      ∀ t : Timestamp, z.published = some t → cutoff ≤ t.time := by
  induction feeds with
  | nil => intro st h; exact h
  | cons f rest ih =>
    intro st h
    have g := processItems_pub cutoff pf mt (sortDesc (keyOf now) f) st.1 st.2 0 h
    rw [harvestGo_cons]
    by_cases hb : mt ≤ (processItems cutoff pf mt (sortDesc (keyOf now) f) st.1 st.2 0).1.length
    · rw [if_pos hb]; exact g
    · rw [if_neg hb]; exact ih _ g

/-- When no item anywhere has a published value, the sorted feed loop
agrees with the fetch-order loop, and the accepted items again all lack a
published value. -/
theorem harvestGo_none (now cutoff : Int) (pf mt : Nat) (feeds : List (List Item)) :
    ∀ st : List Item × List String,
    (∀ f ∈ feeds, ∀ z ∈ f, z.published = none) →
    (∀ z ∈ st.1, z.published = none) →
    harvestGo now cutoff pf mt feeds st = fetchOrderGo cutoff pf mt feeds st
    ∧ ∀ z ∈ (harvestGo now cutoff pf mt feeds st).1, z.published = none := by
  induction feeds with
  | nil => intro st _ h; exact ⟨rfl, h⟩
  | cons f rest ih =>
    intro st hf h
    have hfz : ∀ z ∈ f, z.published = none := hf f (List.mem_cons_self f rest)
    have hsort : sortDesc (keyOf now) f = f :=
      sortDesc_const_key (keyOf now) now f (fun z hz => keyOf_none now z (hfz z hz))
    have hout : ∀ z ∈ (processItems cutoff pf mt f st.1 st.2 0).1, z.published = none :=
      processItems_none cutoff pf mt f st.1 st.2 0 hfz h
    rw [harvestGo_cons, fetchOrderGo_cons, hsort]
    by_cases hb : mt ≤ (processItems cutoff pf mt f st.1 st.2 0).1.length
    · rw [if_pos hb, if_pos hb]; exact ⟨rfl, hout⟩
    · rw [if_neg hb, if_neg hb]
      exact ih _ (fun g hg => hf g (List.mem_cons_of_mem f hg)) hout

/-- Feeds containing no item of the given source leave the count of that
source in the accepted list unchanged. -/
theorem harvestGo_countP_skip (now cutoff : Int) (pf mt : Nat) (nm : String)
    (feeds : List (List Item)) :
    ∀ st : List Item × List String,
    (∀ g ∈ feeds, ∀ z ∈ g, z.source ≠ nm) →
    ((harvestGo now cutoff pf mt feeds st).1.countP (fun z => z.source == nm))
      = st.1.countP (fun z => z.source == nm) := by
  induction feeds with
  | nil => intro st _; rfl
  | cons f rest ih =>
    intro st hf
    obtain ⟨ch, h1, h2, h3⟩ := processItems_chunk cutoff pf mt (sortDesc (keyOf now) f) st.1 st.2 0
    have hch : ch.countP (fun z => z.source == nm) = 0 := by
      rw [List.countP_eq_zero]
      intro z hz
      obtain ⟨z0, hz0, rfl⟩ := h3 z hz
      have hz0f : z0 ∈ f := (sortDesc_mem (keyOf now) f z0).1 hz0
      have hne : z0.source ≠ nm := hf f (List.mem_cons_self f rest) z0 hz0f
      simp [coerceTz_source, hne]
    have hcnt : (processItems cutoff pf mt (sortDesc (keyOf now) f) st.1 st.2 0).1.countP
        (fun z => z.source == nm) = st.1.countP (fun z => z.source == nm) := by
      rw [h1, List.countP_append, hch]
      omega
    rw [harvestGo_cons]
    by_cases hb : mt ≤ (processItems cutoff pf mt (sortDesc (keyOf now) f) st.1 st.2 0).1.length
    · rw [if_pos hb]; exact hcnt
    · rw [if_neg hb]
      rw [ih _ (fun g hg => hf g (List.mem_cons_of_mem f hg))]
      exact hcnt

/-- The feed in the middle of otherwise foreign-source feeds contributes
at most pf items of its source to the accepted list. -/
theorem harvestGo_countP_le (now cutoff : Int) (pf mt : Nat) (nm : String)
    (f : List Item) (post : List (List Item)) :
    ∀ (pre : List (List Item)) (st : List Item × List String),
    (∀ g ∈ pre, ∀ z ∈ g, z.source ≠ nm) →
    (∀ g ∈ post, ∀ z ∈ g, z.source ≠ nm) →
    ((harvestGo now cutoff pf mt (pre ++ f :: post) st).1.countP (fun z => z.source == nm))
      ≤ st.1.countP (fun z => z.source == nm) + pf := by
  intro pre
  induction pre with
  | nil =>
    intro st _ hpost
    obtain ⟨ch, h1, h2, _⟩ := processItems_chunk cutoff pf mt (sortDesc (keyOf now) f) st.1 st.2 0
    have hcnt : (processItems cutoff pf mt (sortDesc (keyOf now) f) st.1 st.2 0).1.countP
        (fun z => z.source == nm) ≤ st.1.countP (fun z => z.source == nm) + pf := by
      rw [h1, List.countP_append]
      have hle : ch.countP (fun z => z.source == nm) ≤ ch.length := List.countP_le_length _
      omega
    rw [List.nil_append, harvestGo_cons]
    by_cases hb : mt ≤ (processItems cutoff pf mt (sortDesc (keyOf now) f) st.1 st.2 0).1.length
    · rw [if_pos hb]; exact hcnt
    · rw [if_neg hb]
      rw [harvestGo_countP_skip now cutoff pf mt nm post _ hpost]
      exact hcnt
  | cons g pre2 ih =>
    intro st hpre hpost
    obtain ⟨ch, h1, h2, h3⟩ := processItems_chunk cutoff pf mt (sortDesc (keyOf now) g) st.1 st.2 0
    have hch : ch.countP (fun z => z.source == nm) = 0 := by
      rw [List.countP_eq_zero]
      intro z hz
      obtain ⟨z0, hz0, rfl⟩ := h3 z hz
      have hz0g : z0 ∈ g := (sortDesc_mem (keyOf now) g z0).1 hz0
      have hne : z0.source ≠ nm := hpre g (List.mem_cons_self g pre2) z0 hz0g
      simp [coerceTz_source, hne]
    have hcnt : (processItems cutoff pf mt (sortDesc (keyOf now) g) st.1 st.2 0).1.countP
        (fun z => z.source == nm) = st.1.countP (fun z => z.source == nm) := by
      rw [h1, List.countP_append, hch]
      omega
    rw [List.cons_append, harvestGo_cons]
    by_cases hb : mt ≤ (processItems cutoff pf mt (sortDesc (keyOf now) g) st.1 st.2 0).1.length
    · rw [if_pos hb]; omega
    · rw [if_neg hb]
      have hrec := ih (processItems cutoff pf mt (sortDesc (keyOf now) g) st.1 st.2 0)
        (fun g2 hg2 => hpre g2 (List.mem_cons_of_mem g hg2)) hpost
      omega

/-- A per-feed limit of zero accepts nothing from any feed. -/
theorem harvestGo_pf_zero (now cutoff : Int) (mt : Nat) (feeds : List (List Item)) :
    ∀ st : List Item × List String, (harvestGo now cutoff 0 mt feeds st).1 = st.1 := by
  induction feeds with
  | nil => intro st; rfl
  | cons f rest ih =>
    intro st
    obtain ⟨ch, h1, h2, _⟩ := processItems_chunk cutoff 0 mt (sortDesc (keyOf now) f) st.1 st.2 0
    have hch : ch = [] := List.eq_nil_of_length_eq_zero (by omega)
    have h1b : (processItems cutoff 0 mt (sortDesc (keyOf now) f) st.1 st.2 0).1 = st.1 := by
      rw [h1, hch, List.append_nil]
    rw [harvestGo_cons]
    by_cases hb : mt ≤ (processItems cutoff 0 mt (sortDesc (keyOf now) f) st.1 st.2 0).1.length
    · rw [if_pos hb]; exact h1b
    · rw [if_neg hb]; rw [ih]; exact h1b

/-- As long as the global cap has not been reached, an empty feed passes
the state through untouched and the remaining feeds are still processed. -/
theorem harvestGo_empty_feed (now cutoff : Int) (pf mt : Nat) (post : List (List Item)) :
    ∀ (pre : List (List Item)) (st : List Item × List String), st.1.length < mt →
    harvestGo now cutoff pf mt (pre ++ [] :: post) st
      = harvestGo now cutoff pf mt (pre ++ post) st := by
  intro pre
  induction pre with
  | nil =>
    intro st hst
    have hb : ¬ mt ≤ st.1.length := Nat.not_le.2 hst
    rw [List.nil_append, List.nil_append, harvestGo_cons,
      show processItems cutoff pf mt (sortDesc (keyOf now) []) st.1 st.2 0 = st from rfl,
      if_neg hb]
  | cons g pre2 ih =>
    intro st hst
    rw [List.cons_append, List.cons_append, harvestGo_cons, harvestGo_cons]
    by_cases hb : mt ≤ (processItems cutoff pf mt (sortDesc (keyOf now) g) st.1 st.2 0).1.length
    · rw [if_pos hb, if_pos hb]
    · rw [if_neg hb, if_neg hb]
      exact ih _ (Nat.not_le.1 hb)

/-- The links of the aggregated result are pairwise distinct: the seen-set
never readmits an already accepted link, empty or not, and the final sort
only permutes. -/
theorem harvest_links_nodup (now : Int) (pf sh mt : Nat) (feeds : List (List Item)) :
    ((harvest_all now pf sh mt feeds).map (fun z => z.link)).Nodup := by
  have h := harvestGo_inv now (now - (sh : Int)) pf mt feeds ([], [])
    (by intro s; simp) (by simp)
  have hperm := (sortDesc_perm (keyOf now)
    (harvestGo now (now - (sh : Int)) pf mt feeds ([], [])).1).map (fun z => z.link)
  exact (hperm.nodup_iff).2 h.2

/-- If the fallback already succeeds, trying one more candidate field
still succeeds: the parse exception is caught, never propagated. -/
theorem tryDateField_ok (parse : String → Except String Timestamp) (field : Option String)
    {next : Except String (Option Timestamp)} (h : ∃ v, next = Except.ok v) :
    ∃ v, tryDateField parse field next = Except.ok v := by
  cases field with
  | none => simpa [tryDateField] using h
  | some s =>
    cases hp : parse s with
    | ok t => exact ⟨some t, by simp [tryDateField, hp]⟩
    | error err => simpa [tryDateField, hp] using h

/-!  Claim theorems. -/

/-- C1: the claim states that the result length is at most totalLimit and
that totalLimit = 0 gives an empty result.  The code appends an accepted
item before checking the global cap, so with totalLimit = 0 and a single
recent item the result has one element, contradicting the programs own
documentation of the parameter as the maximum total number of items. -/
theorem C1_total_limit_zero_yields_one_item :
    (harvest_all 0 5 24 0 [[itemRecent]]).length = 1
    ∧ ¬ (harvest_all 0 5 24 0 [[itemRecent]]).length ≤ 0 := by
  constructor
  · decide
  · decide

/-- C2 counterexample: an empty-link item that passes the recency filter
and fits inside both limits is nevertheless dropped because another
empty-link item was accepted first; the claim that empty links are never
treated as duplicates is false on the code. -/
theorem C2_empty_link_dropped_cex :
    recencyReject (0 - 24) itemEmptyLink2 = false
    ∧ itemEmptyLink2 ∉ harvest_all 0 10 24 10 [[itemEmptyLink1, itemEmptyLink2]]
    ∧ harvest_all 0 10 24 10 [[itemEmptyLink1, itemEmptyLink2]] = [itemEmptyLink1] := by
  refine ⟨rfl, ?_, by decide⟩
  decide

/-- C2 amended: the duplicate filter keys on the link value itself,
including the empty string, so the links of the result are pairwise
distinct and at most one empty-link item is ever accepted per run. -/
theorem C2_dedup_keys_on_any_link (now : Int) (pf sh mt : Nat) (feeds : List (List Item)) :
    ((harvest_all now pf sh mt feeds).map (fun z => z.link)).Nodup :=
  harvest_links_nodup now pf sh mt feeds

/-- C3: the result is sorted non-increasing by published with an absent
value compared as now, the final pass is exactly the stable sort of the
accepted set (each key class keeps its relative order), and when every
item lacks a parseable timestamp the result equals the sort-free
fetch-order aggregation truncated by the limits. -/
theorem C3_final_sort_stable (now : Int) (pf sh mt : Nat) (feeds : List (List Item)) :
    (harvest_all now pf sh mt feeds).Pairwise (fun a b => keyOf now b ≤ keyOf now a)
    ∧ harvest_all now pf sh mt feeds
        = sortDesc (keyOf now) (harvestGo now (now - (sh : Int)) pf mt feeds ([], [])).1
    ∧ (∀ k : Int,
        (harvest_all now pf sh mt feeds).filter (fun z => keyOf now z == k)
          = ((harvestGo now (now - (sh : Int)) pf mt feeds ([], [])).1).filter
              (fun z => keyOf now z == k))
    ∧ ((∀ f ∈ feeds, ∀ z ∈ f, z.published = none) →
        harvest_all now pf sh mt feeds = harvestFetchOrder now pf sh mt feeds) := by
  refine ⟨sortDesc_sorted (keyOf now) _, rfl, fun k => sortDesc_filter_key (keyOf now) k _, ?_⟩
  intro hall
  have h := harvestGo_none now (now - (sh : Int)) pf mt feeds ([], []) hall (by simp)
  have hkey : ∀ z ∈ (harvestGo now (now - (sh : Int)) pf mt feeds ([], [])).1,
      keyOf now z = now := fun z hz => keyOf_none now z (h.2 z hz)
  unfold harvest_all harvestFetchOrder
  rw [sortDesc_const_key (keyOf now) now _ hkey, h.1]

/-- C3 witness: a concrete all-unparseable run in which the aggregation
equals its sort-free fetch-order counterpart. -/
theorem C3_final_sort_stable_witness :
    harvest_all 0 3 24 10 [[itemEmptyLink1], [itemEmptyLink2]]
      = harvestFetchOrder 0 3 24 10 [[itemEmptyLink1], [itemEmptyLink2]] :=
  (C3_final_sort_stable 0 3 24 10 [[itemEmptyLink1], [itemEmptyLink2]]).2.2.2 (by decide)

/-- C4: every result item with a present published value is at or after
the cutoff now minus sinceHours, and an item without a published value
is never rejected by the recency filter. -/
theorem C4_recency_window (now : Int) (pf sh mt : Nat) (feeds : List (List Item)) :
    (∀ z ∈ harvest_all now pf sh mt feeds, ∀ t : Timestamp,
        z.published = some t → now - (sh : Int) ≤ t.time)
    ∧ (∀ z : Item, z.published = none → recencyReject (now - (sh : Int)) z = false) := by
  constructor
  · intro z hz t ht
    have hz2 : z ∈ (harvestGo now (now - (sh : Int)) pf mt feeds ([], [])).1 :=
      (sortDesc_mem (keyOf now) _ z).1 hz
    exact harvestGo_pub now (now - (sh : Int)) pf mt feeds ([], []) (by simp) z hz2 t ht
  · intro z hzn
    unfold recencyReject
    rw [hzn]

/-- C4 witness: in a concrete run the accepted timestamp lies inside the
window, and a concrete item without a timestamp passes the filter. -/
theorem C4_recency_window_witness :
    ((0 : Int) - ((24 : Nat) : Int) ≤ (-1 : Int))
    ∧ recencyReject ((0 : Int) - ((24 : Nat) : Int)) itemEmptyLink1 = false :=
  ⟨(C4_recency_window 0 5 24 10 [[itemRecent]]).1 itemRecent (by decide) ⟨-1, true⟩ rfl,
   (C4_recency_window 0 5 24 10 [[itemRecent]]).2 itemEmptyLink1 rfl⟩

/-- C5: no two result items share the same non-empty link, and in the
two-source duplicate scenario exactly the item of the earlier-listed
source survives. -/
theorem C5_no_shared_nonempty_link (now : Int) (pf sh mt : Nat) (feeds : List (List Item)) :
    (harvest_all now pf sh mt feeds).Pairwise (fun a b => a.link = "" ∨ a.link ≠ b.link)
    ∧ harvest_all 0 5 24 10 [[itemDupFirst], [itemDupSecond]] = [itemDupFirst] := by
  constructor
  · have h := harvest_links_nodup now pf sh mt feeds
    have h2 : (harvest_all now pf sh mt feeds).Pairwise (fun a b => a.link ≠ b.link) :=
      List.pairwise_map.mp h
    exact h2.imp (fun hne => Or.inr hne)
  · decide

/-- C6: the claim states that each feed is normalized (naive timestamps
coerced to UTC) before the per-source sort.  In the code the sort runs
first, over raw parsed values: on a feed holding one naive and one aware
timestamp the executed sort raises (error), while sorting the coerced
items, as the claim describes, succeeds. -/
theorem C6_sort_runs_before_coercion :
    pySortRaw 0 [itemNaive, itemAware] = Except.error ()
    ∧ pySortRaw 0 ([itemNaive, itemAware].map coerceTz)
        = Except.ok [coerceTz itemNaive, coerceTz itemAware] :=
  ⟨rfl, rfl⟩

/-- C7: a source placed among feeds whose items all carry other source
labels contributes at most perSourceLimit items to the result, and a
per-source limit of zero empties the whole result. -/
theorem C7_per_source_limit (now : Int) (pf sh mt : Nat) (pre post : List (List Item))
    (f : List Item) (nm : String)
    (h : ∀ g ∈ pre ++ post, ∀ z ∈ g, z.source ≠ nm) :
    ((harvest_all now pf sh mt (pre ++ f :: post)).countP (fun z => z.source == nm) ≤ pf)
    ∧ (pf = 0 → harvest_all now pf sh mt (pre ++ f :: post) = []) := by
  constructor
  · have hpre : ∀ g ∈ pre, ∀ z ∈ g, z.source ≠ nm :=
      fun g hg => h g (List.mem_append_left _ hg)
    have hpost : ∀ g ∈ post, ∀ z ∈ g, z.source ≠ nm :=
      fun g hg => h g (List.mem_append_right _ hg)
    have hgo := harvestGo_countP_le now (now - (sh : Int)) pf mt nm f post pre ([], [])
      hpre hpost
    have hperm := sortDesc_perm (keyOf now)
      (harvestGo now (now - (sh : Int)) pf mt (pre ++ f :: post) ([], [])).1
    have hcp := hperm.countP_eq (fun z => z.source == nm)
    unfold harvest_all
    rw [hcp]
    simpa using hgo
  · intro hpf
    subst hpf
    unfold harvest_all
    rw [harvestGo_pf_zero]
    rfl

/-- C7 witness: with perSourceLimit one, source S contributes at most one
item even though its feed offers two. -/
theorem C7_per_source_limit_witness :
    ((harvest_all 0 1 24 10 [[itemOther], [itemS1, itemS2]]).countP
        (fun z => z.source == "S") ≤ 1)
    ∧ ((1 : Nat) = 0 → harvest_all 0 1 24 10 [[itemOther], [itemS1, itemS2]] = []) :=
  C7_per_source_limit 0 1 24 10 [[itemOther]] [] [itemS1, itemS2] "S" (by decide)

/-- C8: the per-entry date extraction is total over every parser
behaviour and every entry: it always returns a value (some parsed
instant or none) and never propagates a parse error. -/
theorem C8_extraction_never_raises (parse : String → Except String Timestamp) (e : Entry) :
    ∃ v : Option Timestamp, extractPublished parse e = Except.ok v :=
  tryDateField_ok parse e.published
    (tryDateField_ok parse e.updated
      (tryDateField_ok parse e.created ⟨none, rfl⟩))

/-- C9 counterexample: with totalLimit = 0 an empty first source ends the
run before the healthy source is consumed, so inserting an empty source
changes the result; the claim as stated, with no bound on totalLimit, is
false on the code. -/
theorem C9_total_limit_zero_cex :
    harvest_all 0 5 24 0 ([[]] ++ [[itemRecent]]) ≠ harvest_all 0 5 24 0 [[itemRecent]] := by
  decide

/-- C9 amended: provided totalLimit is at least one, a source yielding
zero items contributes nothing and the remaining sources are processed
exactly as if the empty source were absent. -/
theorem C9_empty_source_invariance (now : Int) (pf sh mt : Nat)
    (pre post : List (List Item)) (hmt : 1 ≤ mt) :
    harvest_all now pf sh mt (pre ++ [] :: post) = harvest_all now pf sh mt (pre ++ post) := by
  unfold harvest_all
  rw [harvestGo_empty_feed now (now - (sh : Int)) pf mt post pre ([], []) (by simpa using hmt)]

/-- C9 witness: a concrete run with the empty source last equals the run
without it. -/
theorem C9_empty_source_invariance_witness :
    harvest_all 0 5 24 1 ([[itemRecent]] ++ [] :: []) = harvest_all 0 5 24 1 ([[itemRecent]] ++ []) :=
  C9_empty_source_invariance 0 5 24 1 [[itemRecent]] [] (by decide)

/-- C10: a link enters the seen set exactly when an item carrying it is
accepted, so a recency-rejected item records nothing and a later
in-window item with the same link is still accepted, as the concrete
two-source run shows. -/
theorem C10_links_recorded_iff_accepted (now : Int) (pf sh mt : Nat) (feeds : List (List Item)) :
    (∀ s : String,
        s ∈ (harvestGo now (now - (sh : Int)) pf mt feeds ([], [])).2
          ↔ s ∈ ((harvestGo now (now - (sh : Int)) pf mt feeds ([], [])).1.map fun z => z.link))
    ∧ harvest_all 0 5 24 5 [[itemOld], [itemFresh]] = [itemFresh] :=
  ⟨(harvestGo_inv now (now - (sh : Int)) pf mt feeds ([], [])
      (by intro s; simp) (by simp)).1, by decide⟩

end EmailNews
